import Mathlib

/-!
Verification of the conda-rpms package linking engine (`conda_rpms/install.py`).

Byte strings are modelled as `List Nat` (one entry per byte).  Python's
`bytes.count`, `bytes.replace`, and the regex substitution performed by
`binary_replace` are embedded as structurally recursive functions (a fuel
argument bounded by the list length replaces Python's implicit termination,
so that every definition is kernel-reducible).
-/

/-- Python `bytes.count(a)` for a non-empty needle `a`: number of
non-overlapping occurrences, scanning left to right.  `fuel` is a bound on
the length of the scanned list (the scan consumes at least one element per
step).  Unreachable fuel exhaustion returns 0. -/
def countOccAux (a : List Nat) : Nat → List Nat → Nat
  | _, [] => 0
  | 0, _ :: _ => 0
  | fuel + 1, c :: rest =>
    if a <+: (c :: rest) then 1 + countOccAux a fuel ((c :: rest).drop a.length)
    else countOccAux a fuel rest

/-- Python `s.count(a)` on bytes: for the empty needle Python returns
`len(s) + 1`; otherwise non-overlapping left-to-right occurrence count. -/
def countOcc (a s : List Nat) : Nat :=
  if a = [] then s.length + 1 else countOccAux a s.length s

/-- Worker for Python `s.replace(a, b)` with non-empty `a`: scanning left to
right, each non-overlapping occurrence of `a` is replaced by `b`. -/
def replaceOccAux (a b : List Nat) : Nat → List Nat → List Nat
  | _, [] => []
  | 0, l => l
  | fuel + 1, c :: rest =>
    if a <+: (c :: rest) then b ++ replaceOccAux a b fuel ((c :: rest).drop a.length)
    else c :: replaceOccAux a b fuel rest

/-- Python `s.replace(a, b)` on bytes.  With an empty needle Python inserts
`b` before every byte and at the end: `b ++ s0 ++ b ++ s1 ++ ... ++ b`. -/
def replaceOcc (a b s : List Nat) : List Nat :=
  if a = [] then b ++ s.flatMap (fun c => c :: b) else replaceOccAux a b s.length s

/-- The exception raised by `binary_replace` when the replacement does not
fit (`class PaddingError(Exception)`); it carries the placeholder and the
replacement (the `padding` count is derivable from these). -/
structure PaddingError where
  placeholder : List Nat
  replacement : List Nat
deriving DecidableEq, Repr

deriving instance DecidableEq for Except

/-- One step of `pat.sub(replace, data)` in `binary_replace`, where
`pat = re.escape(a) + b'([^\0]*?)\0'`.  The regex engine scans left to
right; at a position where `a` matches and a NUL byte follows somewhere
after it, the lazy `[^\0]*?` makes the match extend exactly to the first
NUL after `a` (inclusive).  The `replace` callback counts the occurrences
of `a` inside the matched region, computes
`padding = (len(a) - len(b)) * occurances`, raises `PaddingError` when the
padding is negative, and otherwise substitutes each occurrence and appends
`padding` NUL bytes.  On a failed match the scan advances one byte. -/
def binarySubAux (a b : List Nat) : Nat → List Nat → Except PaddingError (List Nat)
  | _, [] => Except.ok []
  | 0, l => Except.ok l
  | fuel + 1, c :: rest =>
    if a <+: (c :: rest) ∧ (0 : Nat) ∈ (c :: rest).drop a.length then
      let middle := ((c :: rest).drop a.length).takeWhile (fun x => x != 0)
      let region := a ++ middle ++ [0]
      let occ := countOcc a region
      let padding : Int := ((a.length : Int) - (b.length : Int)) * (occ : Int)
      if padding < 0 then Except.error (PaddingError.mk a b)
      else
        match binarySubAux a b fuel ((c :: rest).drop region.length) with
        | Except.error e => Except.error e
        | Except.ok tl =>
          Except.ok (replaceOcc a b region ++ List.replicate padding.toNat 0 ++ tl)
    else
      match binarySubAux a b fuel rest with
      | Except.error e => Except.error e
      | Except.ok tl => Except.ok (c :: tl)

/-- `binary_replace(data, a, b)` (install.py:244-261): substitute every
regex match as described at `binarySubAux`; `Except.error` models the
raised `PaddingError`.  The internal `assert len(res) == len(data)` is the
subject of claim C1. -/
def binary_replace (data a b : List Nat) : Except PaddingError (List Nat) :=
  binarySubAux a b data.length data

/-- The list of regions `(start, length)` matched by the pattern
`re.escape(a) + b'([^\0]*?)\0'` in the scan performed by `binary_replace`:
the same scan as `binarySubAux`, recording absolute positions instead of
performing the substitution. -/
def matchRegionsAux (a : List Nat) : Nat → Nat → List Nat → List (Nat × Nat)
  | _, _, [] => []
  | 0, _, _ :: _ => []
  | fuel + 1, pos, c :: rest =>
    if a <+: (c :: rest) ∧ (0 : Nat) ∈ (c :: rest).drop a.length then
      let middle := ((c :: rest).drop a.length).takeWhile (fun x => x != 0)
      let rlen := a.length + (middle.length + 1)
      (pos, rlen) :: matchRegionsAux a fuel (pos + rlen) ((c :: rest).drop rlen)
    else matchRegionsAux a fuel (pos + 1) rest

/-- Absolute-positioned match regions of the `binary_replace` scan over
`s`. -/
def matchRegions (a s : List Nat) : List (Nat × Nat) :=
  matchRegionsAux a s.length 0 s

/-- Whether the pattern `re.escape(a) + b'([^\0]*?)\0'` matches anywhere in
`s`: some position carries an occurrence of `a` followed (at or after its
end) by a NUL byte. -/
def hasBinaryMatch (a : List Nat) : List Nat → Bool
  | [] => false
  | c :: rest =>
    decide (a <+: (c :: rest) ∧ (0 : Nat) ∈ (c :: rest).drop a.length) || hasBinaryMatch a rest

theorem flatMap_singleton_id (s : List Nat) : s.flatMap (fun c => [c]) = s := by
  induction s with
  | nil => rfl
  | cons c t ih => simp only [List.flatMap_cons, ih, List.singleton_append]

theorem replaceOccAux_length (a b : List Nat) (ha : a ≠ []) (hb : b.length ≤ a.length) :
    ∀ fuel s, s.length ≤ fuel →
      (replaceOccAux a b fuel s).length + (a.length - b.length) * countOccAux a fuel s
        = s.length := by
  intro fuel
  induction fuel with
  | zero =>
    intro s hs
    cases s with
    | nil => simp [replaceOccAux, countOccAux]
    | cons c rest => simp at hs
  | succ n ih =>
    intro s hs
    cases s with
    | nil => simp [replaceOccAux, countOccAux]
    | cons c rest =>
      have hal : 0 < a.length := List.length_pos.mpr ha
      simp only [List.length_cons] at hs
      by_cases hpre : a <+: (c :: rest)
      · have hd : ((c :: rest).drop a.length).length ≤ n := by
          simp only [List.length_drop, List.length_cons]
          omega
        have hrec := ih ((c :: rest).drop a.length) hd
        have hle : a.length ≤ (c :: rest).length := hpre.length_le
        simp only [replaceOccAux, countOccAux, if_pos hpre, List.length_append]
        simp only [List.length_drop] at hrec ⊢
        have hexp : a.length - b.length + (a.length - b.length) *
            countOccAux a n ((c :: rest).drop a.length)
            = (a.length - b.length) * (1 + countOccAux a n ((c :: rest).drop a.length)) := by
          ring
        omega
      · have hrec := ih rest (by omega)
        simp only [replaceOccAux, countOccAux, if_neg hpre, List.length_cons]
        omega

theorem replaceOcc_length (a b : List Nat) (hb : b.length ≤ a.length) (s : List Nat) :
    (replaceOcc a b s).length + (a.length - b.length) * countOcc a s = s.length := by
  by_cases ha : a = []
  · subst ha
    have hb0 : b = [] := List.eq_nil_of_length_eq_zero (Nat.le_zero.mp hb)
    subst hb0
    simp [replaceOcc, countOcc, flatMap_singleton_id]
  · simp only [replaceOcc, countOcc, if_neg ha]
    exact replaceOccAux_length a b ha hb s.length s le_rfl

theorem nulSplit (t : List Nat) (h : (0 : Nat) ∈ t) :
    ∃ u, t = t.takeWhile (fun x => x != 0) ++ 0 :: u := by
  induction t with
  | nil => cases h
  | cons c rest ih =>
    by_cases hc : c = 0
    · subst hc
      refine ⟨rest, ?_⟩
      simp [List.takeWhile_cons]
    · have h2 : (0 : Nat) ∈ rest := by
        cases List.mem_cons.mp h with
        | inl heq => exact absurd heq.symm hc
        | inr hm => exact hm
      obtain ⟨u, hu⟩ := ih h2
      refine ⟨u, ?_⟩
      have hcb : (c != 0) = true := by simpa using hc
      simp only [List.takeWhile_cons, hcb, if_true, List.cons_append]
      exact congrArg (c :: ·) hu

theorem regionDecomp (a : List Nat) (c : Nat) (rest : List Nat)
    (hpre : a <+: (c :: rest)) (hnul : (0 : Nat) ∈ (c :: rest).drop a.length) :
    ∃ u, c :: rest =
      (a ++ ((c :: rest).drop a.length).takeWhile (fun x => x != 0) ++ [0]) ++ u := by
  obtain ⟨t, ht⟩ := hpre
  have hteq : (c :: rest).drop a.length = t := by
    rw [← ht, List.drop_left]
  obtain ⟨u, hu⟩ := nulSplit t (by rw [hteq] at hnul; exact hnul)
  refine ⟨u, ?_⟩
  calc c :: rest = a ++ t := ht.symm
    _ = a ++ (t.takeWhile (fun x => x != 0) ++ 0 :: u) := by rw [← hu]
    _ = (a ++ ((c :: rest).drop a.length).takeWhile (fun x => x != 0) ++ [0]) ++ u := by
        rw [hteq]
        simp [List.append_assoc]

theorem padding_toNat (a b : List Nat) (occ : Nat) (hb : b.length ≤ a.length) :
    (((a.length : Int) - (b.length : Int)) * (occ : Int)).toNat = (a.length - b.length) * occ := by
  have h1 : ((a.length : Int) - (b.length : Int)) = ((a.length - b.length : Nat) : Int) := by
    omega
  rw [h1, ← Int.natCast_mul, Int.toNat_natCast]

theorem binarySubAuxLength (a b : List Nat) (hb : b.length ≤ a.length) :
    ∀ fuel s, s.length ≤ fuel →
      ∃ res, binarySubAux a b fuel s = Except.ok res ∧ res.length = s.length := by
  intro fuel
  induction fuel with
  | zero =>
    intro s hs
    cases s with
    | nil => exact ⟨[], rfl, rfl⟩
    | cons c rest => simp at hs
  | succ n ih =>
    intro s hs
    cases s with
    | nil => exact ⟨[], rfl, rfl⟩
    | cons c rest =>
      by_cases hcond : a <+: (c :: rest) ∧ (0 : Nat) ∈ (c :: rest).drop a.length
      · obtain ⟨u, hu⟩ := regionDecomp a c rest hcond.1 hcond.2
        set middle := ((c :: rest).drop a.length).takeWhile (fun x => x != 0) with hmid
        set region := a ++ middle ++ [0] with hreg
        have hreg1 : 1 ≤ region.length := by
          rw [hreg]
          simp only [List.length_append, List.length_cons, List.length_nil]
          omega
        have hdropu : (c :: rest).drop region.length = u := by
          rw [hu, List.drop_left]
        have hplen : (c :: rest).length = region.length + u.length := by
          rw [hu, List.length_append]
        have hulen : u.length ≤ n := by
          simp only [List.length_cons] at hplen hs
          omega
        obtain ⟨tl, htl, htlen⟩ := ih u hulen
        have hpadnn : ¬ (((a.length : Int) - (b.length : Int)) * ((countOcc a region : Nat) : Int) < 0) := by
          have h1 : (0 : Int) ≤ (a.length : Int) - (b.length : Int) := by omega
          have h2 : (0 : Int) ≤ ((countOcc a region : Nat) : Int) := Int.natCast_nonneg _
          exact not_lt.mpr (mul_nonneg h1 h2)
        refine ⟨replaceOcc a b region ++
          List.replicate ((((a.length : Int) - (b.length : Int)) *
            ((countOcc a region : Nat) : Int)).toNat) 0 ++ tl, ?_, ?_⟩
        · simp only [binarySubAux, if_pos hcond, ← hmid, ← hreg, if_neg hpadnn, hdropu, htl]
        · have hrl := replaceOcc_length a b hb region
          simp only [List.length_append, List.length_replicate,
            padding_toNat a b (countOcc a region) hb, htlen]
          omega
      · obtain ⟨tl, htl, htlen⟩ := ih rest (by simp only [List.length_cons] at hs; omega)
        refine ⟨c :: tl, ?_, ?_⟩
        · simp only [binarySubAux, if_neg hcond, htl]
        · simp [htlen]

/-- C1: for every byte string `data`, placeholder `a` and replacement `b`
with `len(b) <= len(a)`, `binary_replace(data, a, b)` succeeds (never
raises `PaddingError`, and its internal assertion `len(res) == len(data)`
holds): the result has exactly the length of the input, so a binary-mode
relocation never changes the total byte length of the file. -/
theorem binary_replace_preserves_length (data a b : List Nat) (hb : b.length ≤ a.length) :
    ∃ res, binary_replace data a b = Except.ok res ∧ res.length = data.length :=
  binarySubAuxLength a b hb data.length data le_rfl

/-- Witness for C1 at a concrete input. -/
theorem binary_replace_preserves_length_witness :
    ∃ res, binary_replace [1, 2, 3, 0, 9] [2, 3] [7] = Except.ok res ∧ res.length = 5 :=
  binary_replace_preserves_length [1, 2, 3, 0, 9] [2, 3] [7] (by decide)

/-- The `mode` field of a `has_prefix` entry (`'text'` or `'binary'`). -/
inductive RelocMode
  | text
  | binary
deriving DecidableEq, Repr

/-- `update_prefix(path, new_prefix, placeholder, mode)` (install.py:263-287)
acting on the bytes `data` read from `path` (the file system read/write is
made explicit: the function first reads the whole file, computes the new
contents, and only then opens the file for writing).  `Except.ok none`
models the no-op early return (`if new_data == data: return`, no write);
`Except.ok (some d)` models rewriting the file with `d`; `Except.error`
models the `PaddingError` escaping from `binary_replace`, which is raised
before the file is ever opened for writing.  The `on_win` branch is not
modelled (`on_win` is `False` on the targeted platform). -/
def updatePrefix (data placeholderBytes newBytes : List Nat) (mode : RelocMode) :
    Except PaddingError (Option (List Nat)) :=
  match mode with
  | RelocMode.text =>
    let newData := replaceOcc placeholderBytes newBytes data
    if newData = data then Except.ok none else Except.ok (some newData)
  | RelocMode.binary =>
    match binary_replace data placeholderBytes newBytes with
    | Except.error e => Except.error e
    | Except.ok newData =>
      if newData = data then Except.ok none else Except.ok (some newData)

/-- The bytes the file holds after `update_prefix`: unchanged if the
computation raised (the write never happened) or if the no-op early return
was taken; otherwise the newly written bytes. -/
def updatedFileContent (data : List Nat) (r : Except PaddingError (Option (List Nat))) :
    List Nat :=
  match r with
  | Except.error _ => data
  | Except.ok none => data
  | Except.ok (some d) => d

theorem countOcc_pos (a s : List Nat) (h : a <+: s) : 0 < countOcc a s := by
  by_cases ha : a = []
  · simp [countOcc, ha]
  · cases s with
    | nil =>
      exact absurd (List.prefix_nil.mp h) ha
    | cons c rest =>
      simp only [countOcc, if_neg ha, List.length_cons, countOccAux, if_pos h]
      omega

theorem binarySubAux_error_of_match (a b : List Nat) (hab : a.length < b.length) :
    ∀ fuel s, s.length ≤ fuel → hasBinaryMatch a s = true →
      binarySubAux a b fuel s = Except.error (PaddingError.mk a b) := by
  intro fuel
  induction fuel with
  | zero =>
    intro s hs hm
    cases s with
    | nil => cases hm
    | cons c rest => simp at hs
  | succ n ih =>
    intro s hs hm
    cases s with
    | nil => cases hm
    | cons c rest =>
      simp only [List.length_cons] at hs
      by_cases hcond : a <+: (c :: rest) ∧ (0 : Nat) ∈ (c :: rest).drop a.length
      · set middle := ((c :: rest).drop a.length).takeWhile (fun x => x != 0) with hmid
        set region := a ++ middle ++ [0] with hreg
        have hpr : a <+: region := by
          rw [hreg, List.append_assoc]
          exact List.prefix_append a (middle ++ [0])
        have hocc : 0 < countOcc a region := countOcc_pos a region hpr
        have hneg : ((a.length : Int) - (b.length : Int)) * ((countOcc a region : Nat) : Int) < 0 := by
          have h1 : (a.length : Int) - (b.length : Int) < 0 := by omega
          have h2 : (0 : Int) < ((countOcc a region : Nat) : Int) := by exact_mod_cast hocc
          exact mul_neg_of_neg_of_pos h1 h2
        simp only [binarySubAux, if_pos hcond, ← hmid, ← hreg, if_pos hneg]
      · have hm2 : hasBinaryMatch a rest = true := by
          simp only [hasBinaryMatch, Bool.or_eq_true, decide_eq_true_eq] at hm
          cases hm with
          | inl hx => exact absurd hx hcond
          | inr hx => exact hx
        have hrec := ih rest (by omega) hm2
        simp only [binarySubAux, if_neg hcond, hrec]

/-- C2: a binary-mode relocation whose replacement is longer than the
placeholder, applied to data in which the pattern actually matches (an
occurrence of the placeholder followed by a NUL terminator), raises
`PaddingError`; since `binary_replace` raises before `update_prefix` opens
the file for writing, the file contents are left byte-for-byte unchanged. -/
theorem updatePrefix_overflow_rejected (data a b : List Nat)
    (hab : a.length < b.length) (hm : hasBinaryMatch a data = true) :
    updatePrefix data a b RelocMode.binary = Except.error (PaddingError.mk a b) ∧
    updatedFileContent data (updatePrefix data a b RelocMode.binary) = data := by
  have herr : binary_replace data a b = Except.error (PaddingError.mk a b) :=
    binarySubAux_error_of_match a b hab data.length data le_rfl hm
  constructor
  · simp only [updatePrefix, herr]
  · simp only [updatePrefix, herr, updatedFileContent]

/-- Witness for C2 at a concrete input. -/
theorem updatePrefix_overflow_rejected_witness :
    updatePrefix [1, 2, 0] [1] [8, 9] RelocMode.binary
      = Except.error (PaddingError.mk [1] [8, 9]) ∧
    updatedFileContent [1, 2, 0] (updatePrefix [1, 2, 0] [1] [8, 9] RelocMode.binary)
      = [1, 2, 0] :=
  updatePrefix_overflow_rejected [1, 2, 0] [1] [8, 9] (by decide) (by decide)

theorem getD_drop (s : List Nat) (n m : Nat) : (s.drop n).getD m 0 = s.getD (n + m) 0 := by
  simp only [List.getD_eq_getElem?_getD, List.getElem?_drop]

theorem getD_of_prefix_at (a s : List Nat) (p j : Nat) (h : a <+: s.drop p) (hj : j < a.length) :
    s.getD (p + j) 0 = a.getD j 0 := by
  obtain ⟨t, ht⟩ := h
  rw [← getD_drop, ← ht]
  simp only [List.getD_eq_getElem?_getD, List.getElem?_append_left hj]

theorem getD_mem_of_lt (l : List Nat) (n d : Nat) (h : n < l.length) : l.getD n d ∈ l := by
  rw [List.getD_eq_getElem?_getD, List.getElem?_eq_getElem h]
  simp

theorem matchRegionsAux_coverage (a : List Nat) (ha : a ≠ []) (ha0 : (0 : Nat) ∉ a) :
    ∀ fuel s pos p, s.length ≤ fuel → a <+: s.drop p → (0 : Nat) ∈ s.drop (p + a.length) →
      ∃ r, r ∈ matchRegionsAux a fuel pos s ∧ r.1 ≤ pos + p ∧ pos + p + a.length ≤ r.1 + r.2 := by
  intro fuel
  induction fuel with
  | zero =>
    intro s pos p hs hocc hnul
    cases s with
    | nil =>
      rw [List.drop_nil] at hocc
      exact absurd (List.prefix_nil.mp hocc) ha
    | cons c rest => simp at hs
  | succ n ih =>
    intro s pos p hs hocc hnul
    cases s with
    | nil =>
      rw [List.drop_nil] at hocc
      exact absurd (List.prefix_nil.mp hocc) ha
    | cons c rest =>
      simp only [List.length_cons] at hs
      by_cases hcond : a <+: (c :: rest) ∧ (0 : Nat) ∈ (c :: rest).drop a.length
      · obtain ⟨u, hu⟩ := regionDecomp a c rest hcond.1 hcond.2
        set middle := ((c :: rest).drop a.length).takeWhile (fun x => x != 0) with hmid
        set rlen := a.length + (middle.length + 1) with hrlendef
        have hreglen : (a ++ middle ++ [0]).length = rlen := by
          simp only [List.length_append, List.length_cons, List.length_nil, hrlendef]
          omega
        have hdropu : (c :: rest).drop rlen = u := by
          rw [hu, ← hreglen, List.drop_left]
        have hplen : rest.length + 1 = rlen + u.length := by
          have := congrArg List.length hu
          simp only [List.length_cons, List.length_append, hreglen] at this
          omega
        rcases Nat.lt_or_ge p rlen with hp | hp
        · rcases le_or_lt (p + a.length) rlen with hfit | hcross
          · refine ⟨(pos, rlen), ?_, ?_, ?_⟩
            · simp only [matchRegionsAux, if_pos hcond, ← hmid, ← hrlendef]
              exact List.mem_cons_self _ _
            · omega
            · simp only []
              omega
          · exfalso
            have hnulat : (c :: rest).getD (rlen - 1) 0 = 0 := by
              rw [hu]
              have h1 : (a ++ middle).length = rlen - 1 := by
                simp only [List.length_append, hrlendef]
                omega
              have h2 : ((a ++ middle ++ [0]) ++ u).getD (rlen - 1) 0
                  = ((a ++ middle) ++ ([0] ++ u)).getD (rlen - 1) 0 := by
                simp only [List.append_assoc]
              rw [h2]
              simp only [List.getD_eq_getElem?_getD]
              rw [List.getElem?_append_right (by omega)]
              simp [h1]
            have hj : (rlen - 1 - p) < a.length := by omega
            have hpj : p + (rlen - 1 - p) = rlen - 1 := by omega
            have := getD_of_prefix_at a (c :: rest) p (rlen - 1 - p) hocc hj
            rw [hpj, hnulat] at this
            have hmem := getD_mem_of_lt a (rlen - 1 - p) 0 hj
            rw [← this] at hmem
            exact ha0 hmem
        · have hudrop1 : u.drop (p - rlen) = (c :: rest).drop p := by
            rw [← hdropu, List.drop_drop]
            congr 1
            omega
          have hudrop2 : u.drop (p - rlen + a.length) = (c :: rest).drop (p + a.length) := by
            rw [← hdropu, List.drop_drop]
            congr 1
            omega
          have hulen : u.length ≤ n := by omega
          obtain ⟨r, hrmem, hr1, hr2⟩ := ih u (pos + rlen) (p - rlen) hulen
            (by rw [hudrop1]; exact hocc) (by rw [hudrop2]; exact hnul)
          refine ⟨r, ?_, by omega, by omega⟩
          simp only [matchRegionsAux, if_pos hcond, ← hmid, ← hrlendef, hdropu]
          exact List.mem_cons_of_mem _ hrmem
      · cases p with
        | zero =>
          exfalso
          rw [List.drop_zero] at hocc
          rw [Nat.zero_add] at hnul
          exact hcond ⟨hocc, hnul⟩
        | succ q =>
          have hdq1 : (c :: rest).drop (q + 1) = rest.drop q := rfl
          have hdq2 : (c :: rest).drop (q + 1 + a.length) = rest.drop (q + a.length) := by
            have : q + 1 + a.length = (q + a.length) + 1 := by omega
            rw [this]
            rfl
          obtain ⟨r, hrmem, hr1, hr2⟩ := ih rest (pos + 1) q (by omega)
            (by rw [← hdq1]; exact hocc) (by rw [← hdq2]; exact hnul)
          refine ⟨r, ?_, by omega, by omega⟩
          simp only [matchRegionsAux, if_neg hcond]
          exact hrmem

theorem binarySubAux_outside_unchanged (a b : List Nat) (hb : b.length ≤ a.length) :
    ∀ fuel s pos res, s.length ≤ fuel → binarySubAux a b fuel s = Except.ok res →
      ∀ i, (∀ r, r ∈ matchRegionsAux a fuel pos s → pos + i < r.1 ∨ r.1 + r.2 ≤ pos + i) →
        res.getD i 0 = s.getD i 0 := by
  intro fuel
  induction fuel with
  | zero =>
    intro s pos res hs heq i hfree
    cases s with
    | nil =>
      cases heq
      rfl
    | cons c rest => simp at hs
  | succ n ih =>
    intro s pos res hs heq i hfree
    cases s with
    | nil =>
      cases heq
      rfl
    | cons c rest =>
      simp only [List.length_cons] at hs
      by_cases hcond : a <+: (c :: rest) ∧ (0 : Nat) ∈ (c :: rest).drop a.length
      · obtain ⟨u, hu⟩ := regionDecomp a c rest hcond.1 hcond.2
        set middle := ((c :: rest).drop a.length).takeWhile (fun x => x != 0) with hmid
        set region := a ++ middle ++ [0] with hreg
        set rlen := a.length + (middle.length + 1) with hrlendef
        have hreglen : region.length = rlen := by
          rw [hreg]
          simp only [List.length_append, List.length_cons, List.length_nil, hrlendef]
          omega
        have hdropu : (c :: rest).drop region.length = u := by
          rw [hu, List.drop_left]
        have hdropu2 : (c :: rest).drop rlen = u := by
          rw [← hreglen, hdropu]
        have hplen : rest.length + 1 = rlen + u.length := by
          have := congrArg List.length hu
          simp only [List.length_cons, List.length_append, hreglen] at this
          omega
        have hpadnn : ¬ (((a.length : Int) - (b.length : Int)) *
            ((countOcc a region : Nat) : Int) < 0) := by
          have h1 : (0 : Int) ≤ (a.length : Int) - (b.length : Int) := by omega
          have h2 : (0 : Int) ≤ ((countOcc a region : Nat) : Int) := Int.natCast_nonneg _
          exact not_lt.mpr (mul_nonneg h1 h2)
        simp only [binarySubAux, if_pos hcond, ← hmid, ← hreg, if_neg hpadnn] at heq
        cases hrec : binarySubAux a b n ((c :: rest).drop region.length) with
        | error e =>
          rw [hrec] at heq
          cases heq
        | ok tl =>
          rw [hrec] at heq
          cases heq
          have hfreehead := hfree (pos, rlen)
            (by
              simp only [matchRegionsAux, if_pos hcond, ← hmid, ← hrlendef]
              exact List.mem_cons_self _ _)
          have hilen : rlen ≤ i := by
            rcases hfreehead with h | h
            · omega
            · simpa using h
          have hblock : (replaceOcc a b region ++
              List.replicate ((((a.length : Int) - (b.length : Int)) *
                ((countOcc a region : Nat) : Int)).toNat) 0).length = rlen := by
            have hrl := replaceOcc_length a b hb region
            simp only [List.length_append, List.length_replicate,
              padding_toNat a b (countOcc a region) hb]
            omega
          have hres : (replaceOcc a b region ++
              List.replicate ((((a.length : Int) - (b.length : Int)) *
                ((countOcc a region : Nat) : Int)).toNat) 0 ++ tl).getD i 0
              = tl.getD (i - rlen) 0 := by
            simp only [List.getD_eq_getElem?_getD]
            rw [List.getElem?_append_right (by rw [hblock]; omega)]
            rw [hblock]
          have hsrc : (c :: rest).getD i 0 = u.getD (i - rlen) 0 := by
            rw [hu]
            simp only [List.getD_eq_getElem?_getD]
            rw [List.getElem?_append_right (by rw [hreglen]; omega)]
            rw [hreglen]
          have hulen : u.length ≤ n := by omega
          have hfreetail : ∀ r, r ∈ matchRegionsAux a n (pos + rlen) u →
              (pos + rlen) + (i - rlen) < r.1 ∨ r.1 + r.2 ≤ (pos + rlen) + (i - rlen) := by
            intro r hr
            have := hfree r
              (by
                simp only [matchRegionsAux, if_pos hcond, ← hmid, ← hrlendef, hdropu2]
                exact List.mem_cons_of_mem _ hr)
            have hpi : (pos + rlen) + (i - rlen) = pos + i := by omega
            rw [hpi]
            exact this
          rw [hres, hsrc]
          exact ih u (pos + rlen) tl hulen (by rw [hdropu] at hrec; exact hrec)
            (i - rlen) hfreetail
      · simp only [binarySubAux, if_neg hcond] at heq
        cases hrec : binarySubAux a b n rest with
        | error e =>
          rw [hrec] at heq
          cases heq
        | ok tl =>
          rw [hrec] at heq
          cases heq
          cases i with
          | zero => rfl
          | succ j =>
            simp only [List.getD_cons_succ]
            have hfree2 : ∀ r, r ∈ matchRegionsAux a n (pos + 1) rest →
                (pos + 1) + j < r.1 ∨ r.1 + r.2 ≤ (pos + 1) + j := by
              intro r hr
              have := hfree r (by simp only [matchRegionsAux, if_neg hcond]; exact hr)
              have hpi : (pos + 1) + j = pos + (j + 1) := by omega
              rw [hpi]
              exact this
            exact ih rest (pos + 1) tl (by omega) hrec j hfree2

/-- C3 counterexample: the claim as stated fails.  With `data = [1]`,
placeholder `a = [1]` and replacement `b = [2]` (`len(b) <= len(a)`), the
occurrence of the placeholder at position 0 has no NUL terminator after
it, so the pattern `re.escape(a) + b'([^\0]*?)\0'` never matches:
`binary_replace` returns the input unchanged, the occurrence of `a` is
still present in the result, and no byte of the replacement appears. -/
theorem binary_replace_unterminated_occurrence_kept :
    ([2] : List Nat).length ≤ ([1] : List Nat).length ∧
    binary_replace [1] [1] [2] = Except.ok [1] ∧
    ([1] : List Nat) <:+: [1] ∧ ¬ ([2] : List Nat) <:+: [1] := by
  decide

/-- C3 (amended): in binary mode, for a non-empty placeholder `a`
containing no NUL byte, every exact occurrence of `a` in `data` that is
followed by a NUL byte (the embedded string terminator required by the
pattern) is rewritten: it lies inside a matched region of the scan
performed by `binary_replace`, and whenever `binary_replace` succeeds with
`len(b) <= len(a)` every byte outside the matched regions is left
unchanged — so occurrences without a subsequent NUL terminator are left
as-is rather than replaced. -/
theorem binary_replace_rewrites_terminated_occurrences
    (a data : List Nat) (ha : a ≠ []) (ha0 : (0 : Nat) ∉ a) (p : Nat)
    (hocc : a <+: data.drop p) (hnul : (0 : Nat) ∈ data.drop (p + a.length)) :
    (∃ r, r ∈ matchRegions a data ∧ r.1 ≤ p ∧ p + a.length ≤ r.1 + r.2) ∧
    (∀ b res, b.length ≤ a.length → binary_replace data a b = Except.ok res →
      ∀ i, (∀ r, r ∈ matchRegions a data → i < r.1 ∨ r.1 + r.2 ≤ i) →
        res.getD i 0 = data.getD i 0) := by
  constructor
  · obtain ⟨r, hrmem, hr1, hr2⟩ :=
      matchRegionsAux_coverage a ha ha0 data.length data 0 p le_rfl hocc hnul
    rw [Nat.zero_add] at hr1 hr2
    exact ⟨r, hrmem, hr1, hr2⟩
  · intro b res hb hres i hfree
    refine binarySubAux_outside_unchanged a b hb data.length data 0 res le_rfl hres i ?_
    intro r hr
    rw [Nat.zero_add]
    exact hfree r hr

/-- Witness for the amended C3 at a concrete input: the occurrence of
`[1, 2]` at position 1 of `[5, 1, 2, 7, 0, 3]` is NUL-terminated and is
covered by a matched region. -/
theorem binary_replace_rewrites_terminated_occurrences_witness :
    ∃ r, r ∈ matchRegions [1, 2] [5, 1, 2, 7, 0, 3] ∧ r.1 ≤ 1 ∧ 1 + 2 ≤ r.1 + r.2 :=
  (binary_replace_rewrites_terminated_occurrences [1, 2] [5, 1, 2, 7, 0, 3]
    (by decide) (by decide) 1 (by decide) (by decide)).1

/-!
String-level embedding.  Paths, distribution identifiers and file contents
handled as text are modelled as Lean `String`s; the helpers below mirror
the Python string operations used by install.py, implemented over the
underlying character lists so that they are kernel-reducible (the Python
code only ever feeds them ASCII, for which characters and bytes agree).
-/

/-- The characters stripped by Python's `str.strip()` with no argument. -/
def pyWhitespaceChar (c : Char) : Bool :=
  c == ' ' || c == '\t' || c == '\n' || c == '\r' || c == '\x0b' || c == '\x0c'

/-- Python `s.strip()`. -/
def pyStrip (s : String) : String :=
  String.mk (((s.data.dropWhile pyWhitespaceChar).reverse.dropWhile pyWhitespaceChar).reverse)

/-- Python `s.startswith(t)`. -/
def strStartsWith (s t : String) : Bool := t.data.isPrefixOf s.data

/-- Python `s.endswith(t)`. -/
def strEndsWith (s t : String) : Bool := t.data.isSuffixOf s.data

/-- Python `s[:-n]` for `0 < n <= len(s)` (used as `fn[:-5]` in `linked`). -/
def strDropRight (s : String) (n : Nat) : String :=
  String.mk (s.data.take (s.data.length - n))

/-- `yield_lines(path)` (install.py:209-214) on the list of lines of the
file: each line is stripped; empty results and results starting with `#`
are dropped, everything else is yielded (stripped). -/
def yield_lines (lines : List String) : List String :=
  lines.filterMap (fun l =>
    let t := pyStrip l
    if t = "" ∨ strStartsWith t "#" = true then none else some t)

/-- `name_dist(dist) = dist.rsplit('-', 2)[0]` (install.py:290-291): the
identifier with its trailing two hyphen-delimited components stripped
(fewer, when the identifier has fewer than two hyphens). -/
def name_dist (dist : String) : String :=
  let parts := dist.data.splitOn '-'
  if parts.length ≤ 2 then String.mk (parts.headD [])
  else String.mk (List.intercalate ['-'] (parts.take (parts.length - 2)))

/-- `os.path.join(p, f)` for POSIX paths, restricted to a single extra
component as used throughout install.py. -/
def pathJoin (p f : String) : String :=
  if strStartsWith f "/" then f
  else if p = "" ∨ p.data.getLastD ' ' = '/' then p ++ f
  else p ++ "/" ++ f

/-- Index of the last `/` of the character list, if any. -/
def lastSlashIdx (l : List Char) : Option Nat :=
  ((List.range l.length).filter (fun i => l.getD i ' ' == '/')).getLast?

/-- `os.path.dirname(p)` for POSIX paths: everything up to the last slash,
with trailing slashes stripped unless the head consists only of slashes. -/
def dirName (p : String) : String :=
  match lastSlashIdx p.data with
  | none => ""
  | some k =>
    let head := p.data.take (k + 1)
    if head.all (fun c => c == '/') then String.mk head
    else String.mk ((head.reverse.dropWhile (fun c => c == '/')).reverse)

/-- `linked(prefix)` (install.py:688-695) on the listing of the
`conda-meta` directory: the names of the `.json` entries with the
extension removed (a missing directory is modelled by the empty
listing). -/
def linked (metaDirListing : List String) : List String :=
  (metaDirListing.filter (fun fn => strEndsWith fn ".json")).map (fun fn => strDropRight fn 5)

/-- A single-quote character, used to spell out the quotes embedded in the
entry-point script template. -/
def singleQuote : String := String.mk [Char.ofNat 39]

/-- `python_entry_point_template % {...}` (install.py:416-424, after
`.lstrip()`): the synthesized entry-point script body for the given
module, import name and function. -/
def python_entry_point_template_filled (module importName func : String) : String :=
  "# -*- coding: utf-8 -*-\nimport re\nimport sys\nfrom " ++ module ++ " import " ++
  importName ++ "\nif __name__ == " ++ singleQuote ++ "__main__" ++ singleQuote ++
  ":\n    sys.argv[0] = re.sub(r" ++ singleQuote ++ "(-script\\.pyw?|\\.exe)?$" ++
  singleQuote ++ ", " ++ singleQuote ++ singleQuote ++ ", sys.argv[0])\n    sys.exit(" ++
  func ++ "())\n"

/-- `func.split('.')[0]` (install.py:561). -/
def importNameOf (func : String) : String :=
  String.mk ((func.data.splitOn '.').headD [])

/-- The executable part of `SHEBANG_REGEX` (install.py:427-431):
`(/(?:\\ |[^ \n\r\t])*)` after the leading slash — greedily take escaped
spaces (`\\ `) and characters that are not space, newline, carriage
return or tab; return the taken block and the remainder. -/
def takeExecChars : List Char → List Char × List Char
  | [] => ([], [])
  | '\\' :: ' ' :: tl =>
    let pr := takeExecChars tl
    ('\\' :: ' ' :: pr.1, pr.2)
  | c :: tl =>
    if c = ' ' ∨ c = '\n' ∨ c = '\r' ∨ c = '\t' then ([], c :: tl)
    else
      let pr := takeExecChars tl
      (c :: pr.1, pr.2)

/-- `re.match(SHEBANG_REGEX, data, re.MULTILINE)` (install.py:536):
anchored at the start, `#!`, optional spaces, an executable path starting
with `/`, then the rest of the first line as options; returns the groups
`(whole_shebang, executable, options)` on success. -/
def parseShebang (data : String) : Option (String × String × String) :=
  match data.data with
  | '#' :: '!' :: tl =>
    let spaces := tl.takeWhile (fun c => c == ' ')
    let rest := tl.dropWhile (fun c => c == ' ')
    match rest with
    | '/' :: tl2 =>
      let pr := takeExecChars tl2
      let exe := '/' :: pr.1
      let opts := pr.2.takeWhile (fun c => c != '\n')
      some (String.mk ('#' :: '!' :: (spaces ++ exe ++ opts)), String.mk exe, String.mk opts)
    | _ => none
  | _ => none

/-- Worker for Python `s.replace(pat, rep)` on text with a non-empty
pattern: every non-overlapping occurrence is replaced, scanning left to
right (fuel bounded by the list length). -/
def replaceAllCharsAux (pat rep : List Char) : Nat → List Char → List Char
  | _, [] => []
  | 0, l => l
  | fuel + 1, c :: tl =>
    if pat.isPrefixOf (c :: tl) then
      rep ++ replaceAllCharsAux pat rep fuel ((c :: tl).drop pat.length)
    else c :: replaceAllCharsAux pat rep fuel tl

/-- Python `s.replace(pat, rep)` on text. -/
def strReplaceAll (s pat rep : String) : String :=
  if pat.data = [] then String.mk (rep.data ++ s.data.flatMap (fun c => c :: rep.data))
  else String.mk (replaceAllCharsAux pat.data rep.data s.data.length s.data)

/-- `replace_long_shebang(data)` (install.py:527-544): when the matched
shebang line is longer than 127 bytes, every occurrence of it in `data`
is replaced by the indirect `#!/usr/bin/env <name><options>` form, where
`<name>` is the last `/`-separated component of the executable. -/
def replace_long_shebang (data : String) : String :=
  match parseShebang data with
  | some groups =>
    if 127 < groups.1.length then
      let executableName := String.mk ((groups.2.1.data.splitOn '/').getLastD [])
      strReplaceAll data groups.1 ("#!/usr/bin/env " ++ executableName ++ groups.2.2)
    else data
  | none => data

/-- The observable outcome of `create_python_entry_point`. -/
structure EntryPointOutcome where
  warned : Bool
  content : String
  madeExecutable : Bool
  returnedPath : String
deriving DecidableEq, Repr

/-- `create_python_entry_point(target_full_path, python_full_path, module,
func)` (install.py:547-588), with the file system made explicit:
`existing` is the content of `target_full_path` when `os.path.lexists`
holds, `none` otherwise.  A pre-existing target produces
`warnings.warn(...)` (recorded in `warned`; execution continues), and the
file is then opened with mode `'w'` (truncating) and written with the
optional shebang followed by the synthesized script. -/
def create_python_entry_point (existing : Option String) (targetFullPath : String)
    (pythonFullPath : Option String) (module func : String) : EntryPointOutcome :=
  let warned := existing.isSome
  let pyscript := python_entry_point_template_filled module (importNameOf func) func
  let shebang : Option String :=
    match pythonFullPath with
    | some p => some (replace_long_shebang ("#!" ++ p ++ "\n"))
    | none => none
  let content := (match shebang with | some sb => sb | none => "") ++ pyscript
  { warned := warned, content := content, madeExecutable := shebang.isSome,
    returnedPath := targetFullPath }

/-- C5 counterexample: the claim that "the existing file wins" fails.
With a pre-existing target whose content is `OLD`, the function does warn,
but then truncates and rewrites the file: the final content is the
synthesized script (it starts with the shebang, not with `OLD`), so the
synthesized script wins, not the existing file. -/
theorem create_python_entry_point_overwrites_existing :
    (create_python_entry_point (some "OLD") "/env/bin/foo" (some "/env/bin/python2.7")
      "pkg.mod" "main").warned = true ∧
    (create_python_entry_point (some "OLD") "/env/bin/foo" (some "/env/bin/python2.7")
      "pkg.mod" "main").content ≠ "OLD" := by
  decide

/-- C5 (amended): when the target script already exists,
`create_python_entry_point` issues a warning and is not fatal, but the
synthesized script wins: the target is overwritten with the generated
content (optional shebang followed by the filled-in template),
independently of the pre-existing content. -/
theorem create_python_entry_point_warns_and_overwrites (existing : Option String)
    (tp : String) (pp : Option String) (module func : String)
    (hex : existing.isSome = true) :
    (create_python_entry_point existing tp pp module func).warned = true ∧
    (create_python_entry_point existing tp pp module func).content =
      (match pp with
       | some p => replace_long_shebang ("#!" ++ p ++ "\n")
       | none => "") ++ python_entry_point_template_filled module (importNameOf func) func := by
  constructor
  · simpa [create_python_entry_point] using hex
  · cases pp with
    | none => rfl
    | some p => rfl

/-- Witness for the amended C5 at a concrete input. -/
theorem create_python_entry_point_warns_and_overwrites_witness :
    (create_python_entry_point (some "OLD") "/env/bin/foo" (some "/env/bin/python2.7")
      "pkg.mod" "main").warned = true ∧
    (create_python_entry_point (some "OLD") "/env/bin/foo" (some "/env/bin/python2.7")
      "pkg.mod" "main").content =
      replace_long_shebang "#!/env/bin/python2.7\n" ++
        python_entry_point_template_filled "pkg.mod" (importNameOf "main") "main" :=
  create_python_entry_point_warns_and_overwrites (some "OLD") "/env/bin/foo"
    (some "/env/bin/python2.7") "pkg.mod" "main" (by decide)

/-!
Unlink (install.py:870-913).  The environment is modelled by the explicit
state below: the set of regular files in the prefix, the set of
directories, and the `conda-meta` records (distribution name paired with
the `files` list of its JSON record).  Hook scripts and menu handling are
side effects with no bearing on the claims and are not modelled; the
`on_win` branch is dead on the targeted platform.
-/

/-- Explicit prefix state for `link`/`unlink`. -/
structure EnvState where
  files : List String
  dirs : List String
  metas : List (String × List String)
deriving DecidableEq, Repr

/-- Reading `<prefix>/conda-meta/<dist>.json` : the `files` entry of the
record, if the record exists. -/
def lookupMeta (metas : List (String × List String)) (dist : String) :
    Option (List String) :=
  (metas.find? (fun m => m.1 == dist)).map (fun m => m.2)

/-- `os.unlink(meta_path)` on the record store. -/
def removeMetaRec (metas : List (String × List String)) (dist : String) :
    List (String × List String) :=
  metas.filter (fun m => m.1 != dist)

/-- `os.unlink(p)`: removes the file or raises `OSError` when missing. -/
def osUnlink (fs : List String) (p : String) : Except Unit (List String) :=
  if p ∈ fs then Except.ok (fs.erase p) else Except.error ()

/-- The per-file loop body of `unlink` (install.py:892-898):
`try: os.unlink(dst) except OSError: log.debug(...)` — a missing file is
tolerated and the state is left unchanged. -/
def tryUnlink (fs : List String) (p : String) : List String :=
  match osUnlink fs p with
  | Except.ok fs2 => fs2
  | Except.error _ => fs

/-- The entries of directory `d`: files and directories whose `dirname`
is `d`. -/
def dirEntries (files dirs : List String) (d : String) : List String :=
  files.filter (fun f => dirName f == d) ++ dirs.filter (fun e => dirName e == d)

/-- `os.rmdir(path)`: removes the directory when it exists and is empty,
raises `OSError` otherwise (missing, not a directory, or non-empty). -/
def osRmdir (st : EnvState) (d : String) : Except Unit EnvState :=
  if d ∈ st.dirs ∧ dirEntries st.files st.dirs d = [] then
    Except.ok { st with dirs := st.dirs.erase d }
  else Except.error ()

/-- `rm_empty_dir(path)` (install.py:198-206):
`try: os.rmdir(path) except OSError: pass`. -/
def rm_empty_dir (st : EnvState) (d : String) : EnvState :=
  match osRmdir st d with
  | Except.ok st2 => st2
  | Except.error _ => st

/-- The pruning loop of `unlink` (install.py:912-913). -/
def pruneDirs (st : EnvState) (l : List String) : EnvState :=
  l.foldl rm_empty_dir st

/-- Stable insertion into a list sorted by decreasing string length. -/
def insertLenDesc (x : String) : List String → List String
  | [] => [x]
  | y :: ys => if x.length ≤ y.length then y :: insertLenDesc x ys else x :: y :: ys

/-- `sorted(l, key=len, reverse=True)` (install.py:912): a stable sort by
decreasing length (insertion sort, extensionally equal to any stable
sort). -/
def sortByLenDesc (l : List String) : List String :=
  l.foldl (fun acc x => insertLenDesc x acc) []

/-- Python `set` accumulation modelled as order-preserving
deduplication. -/
def dedupAppend (acc : List String) (x : String) : List String :=
  if x ∈ acc then acc else acc ++ [x]

/-- Order-preserving deduplication of a list (the model of a Python set
built by successive `add`s). -/
def dedupList (l : List String) : List String :=
  l.foldl dedupAppend []

/-- The `while len(path) > len(prefix): dst_dirs2.add(path); path =
dirname(path)` walk (install.py:904-907); `fuel` bounds the number of
steps (the path length shrinks at each genuine step). -/
def walkUp (preLen : Nat) : Nat → String → List String
  | 0, _ => []
  | fuel + 1, path =>
    if preLen < path.length then path :: walkUp preLen fuel (dirName path) else []

/-- `dst_dirs1` (install.py:890-894): the directories that contained a
removed file. -/
def dstDirs1 (prefixPath : String) (recFiles : List String) : List String :=
  dedupList (recFiles.map (fun f => dirName (pathJoin prefixPath f)))

/-- `dst_dirs2` (install.py:903-910): every ancestor of a `dst_dirs1`
entry strictly below the prefix root, plus `conda-meta` and the prefix
itself. -/
def dstDirs2 (prefixPath : String) (recFiles : List String) : List String :=
  dedupList ((dstDirs1 prefixPath recFiles).flatMap
      (fun d => walkUp prefixPath.length (d.length + 1) d) ++
    [pathJoin prefixPath "conda-meta", prefixPath])

/-- The observable actions of `unlink`, in execution order. -/
inductive UAction
  | removeFile (path : String)
  | removeMetaRecord (dist : String)
  | pruneDir (path : String)
deriving DecidableEq, Repr

/-- `unlink(prefix, dist)` (install.py:870-913): read the record (raising
`IOError` when it is missing), remove every listed file with a tolerated
per-file failure, then remove the metadata record, then prune candidate
directories deepest-first.  Returns the final state together with the
ordered list of performed actions. -/
def unlinkRun (prefixPath dist : String) (st : EnvState) :
    Except String (EnvState × List UAction) :=
  match lookupMeta st.metas dist with
  | none => Except.error "IOError: missing meta record"
  | some recFiles =>
    let files1 := recFiles.foldl (fun fs f => tryUnlink fs (pathJoin prefixPath f)) st.files
    let metas1 := removeMetaRec st.metas dist
    let order := sortByLenDesc (dstDirs2 prefixPath recFiles)
    let st2 := pruneDirs { files := files1, dirs := st.dirs, metas := metas1 } order
    Except.ok (st2,
      recFiles.map (fun f => UAction.removeFile (pathJoin prefixPath f)) ++
      [UAction.removeMetaRecord dist] ++ order.map UAction.pruneDir)

theorem rm_empty_dir_files (st : EnvState) (d : String) :
    (rm_empty_dir st d).files = st.files := by
  by_cases h : d ∈ st.dirs ∧ dirEntries st.files st.dirs d = []
  · simp [rm_empty_dir, osRmdir, h]
  · simp [rm_empty_dir, osRmdir, h]

theorem rm_empty_dir_metas (st : EnvState) (d : String) :
    (rm_empty_dir st d).metas = st.metas := by
  by_cases h : d ∈ st.dirs ∧ dirEntries st.files st.dirs d = []
  · simp [rm_empty_dir, osRmdir, h]
  · simp [rm_empty_dir, osRmdir, h]

theorem pruneDirs_files (l : List String) :
    ∀ st : EnvState, (pruneDirs st l).files = st.files := by
  induction l with
  | nil =>
    intro st
    rfl
  | cons d tl ih =>
    intro st
    have : pruneDirs st (d :: tl) = pruneDirs (rm_empty_dir st d) tl := rfl
    rw [this, ih, rm_empty_dir_files]

theorem pruneDirs_metas (l : List String) :
    ∀ st : EnvState, (pruneDirs st l).metas = st.metas := by
  induction l with
  | nil =>
    intro st
    rfl
  | cons d tl ih =>
    intro st
    have : pruneDirs st (d :: tl) = pruneDirs (rm_empty_dir st d) tl := rfl
    rw [this, ih, rm_empty_dir_metas]

theorem lookupMeta_removeMetaRec (metas : List (String × List String)) (dist : String) :
    lookupMeta (removeMetaRec metas dist) dist = none := by
  have h : (removeMetaRec metas dist).find? (fun m => m.1 == dist) = none := by
    rw [List.find?_eq_none]
    intro x hx
    have h2 := (List.mem_filter.mp hx).2
    simp only [bne_iff_ne, ne_eq] at h2
    simp only [beq_iff_eq]
    exact h2
  simp [lookupMeta, h]

/-- C7: for every unlink of a linked distribution, a missing file in the
record's file list is tolerated (the failed `os.unlink` is caught, never
fatal: `tryUnlink` is a no-op on a missing path, and `unlinkRun` succeeds
with no assumption whatsoever on which listed files still exist), and the
metadata record is removed only after removal of every listed file has
been attempted: in the action trace, `removeMetaRecord` comes after the
`removeFile` action of every listed file, so a crash before that point
still shows the package as linked. -/
theorem unlink_missing_files_tolerated_meta_last (prefixPath dist : String) (st : EnvState)
    (recFiles : List String) (hrec : lookupMeta st.metas dist = some recFiles) :
    (∀ fs p, p ∉ fs → tryUnlink fs p = fs) ∧
    ∃ st2, unlinkRun prefixPath dist st = Except.ok (st2,
        recFiles.map (fun f => UAction.removeFile (pathJoin prefixPath f)) ++
        [UAction.removeMetaRecord dist] ++
        (sortByLenDesc (dstDirs2 prefixPath recFiles)).map UAction.pruneDir) ∧
      lookupMeta st2.metas dist = none ∧
      st2.files = recFiles.foldl (fun fs f => tryUnlink fs (pathJoin prefixPath f)) st.files := by
  constructor
  · intro fs p hp
    simp [tryUnlink, osUnlink, hp]
  · refine ⟨pruneDirs
      { files := recFiles.foldl (fun fs f => tryUnlink fs (pathJoin prefixPath f)) st.files,
        dirs := st.dirs, metas := removeMetaRec st.metas dist }
      (sortByLenDesc (dstDirs2 prefixPath recFiles)), ?_, ?_, ?_⟩
    · simp only [unlinkRun, hrec]
    · rw [pruneDirs_metas]
      exact lookupMeta_removeMetaRec st.metas dist
    · rw [pruneDirs_files]

/-- Witness for C7 at a concrete input: the record lists a file that is
not present in the prefix (`gone.txt`); unlink still succeeds. -/
theorem unlink_missing_files_tolerated_meta_last_witness :
    (∀ fs p, p ∉ fs → tryUnlink fs p = fs) ∧
    ∃ st2, unlinkRun "/p" "d-1-0"
        (EnvState.mk ["/p/a/x.txt"] ["/p", "/p/a"] [("d-1-0", ["a/x.txt", "gone.txt"])])
        = Except.ok (st2,
        ["a/x.txt", "gone.txt"].map (fun f => UAction.removeFile (pathJoin "/p" f)) ++
        [UAction.removeMetaRecord "d-1-0"] ++
        (sortByLenDesc (dstDirs2 "/p" ["a/x.txt", "gone.txt"])).map UAction.pruneDir) ∧
      lookupMeta st2.metas "d-1-0" = none ∧
      st2.files = ["a/x.txt", "gone.txt"].foldl
        (fun fs f => tryUnlink fs (pathJoin "/p" f)) ["/p/a/x.txt"] :=
  unlink_missing_files_tolerated_meta_last "/p" "d-1-0"
    (EnvState.mk ["/p/a/x.txt"] ["/p", "/p/a"] [("d-1-0", ["a/x.txt", "gone.txt"])])
    ["a/x.txt", "gone.txt"] (by decide)

theorem mem_insertLenDesc (x z : String) :
    ∀ l, z ∈ insertLenDesc x l ↔ z = x ∨ z ∈ l := by
  intro l
  induction l with
  | nil => simp [insertLenDesc]
  | cons y ys ih =>
    by_cases h : x.length ≤ y.length
    · simp only [insertLenDesc, if_pos h, List.mem_cons, ih]
      tauto
    · simp only [insertLenDesc, if_neg h, List.mem_cons]

theorem pairwise_insertLenDesc (x : String) :
    ∀ l, l.Pairwise (fun a b => b.length ≤ a.length) →
      (insertLenDesc x l).Pairwise (fun a b => b.length ≤ a.length) := by
  intro l
  induction l with
  | nil =>
    intro _
    simp [insertLenDesc]
  | cons y ys ih =>
    intro hp
    rw [List.pairwise_cons] at hp
    by_cases h : x.length ≤ y.length
    · simp only [insertLenDesc, if_pos h]
      rw [List.pairwise_cons]
      constructor
      · intro z hz
        rcases (mem_insertLenDesc x z ys).mp hz with rfl | hz2
        · exact h
        · exact hp.1 z hz2
      · exact ih hp.2
    · simp only [insertLenDesc, if_neg h]
      rw [List.pairwise_cons]
      constructor
      · intro z hz
        rcases List.mem_cons.mp hz with rfl | hz2
        · omega
        · exact le_trans (hp.1 z hz2) (by omega)
      · rw [List.pairwise_cons]
        exact hp

theorem sortByLenDesc_pairwise (l : List String) :
    (sortByLenDesc l).Pairwise (fun a b => b.length ≤ a.length) := by
  have hgo : ∀ (t acc : List String), acc.Pairwise (fun a b => b.length ≤ a.length) →
      (t.foldl (fun a x => insertLenDesc x a) acc).Pairwise (fun a b => b.length ≤ a.length) := by
    intro t
    induction t with
    | nil =>
      intro acc h
      exact h
    | cons x tl ih =>
      intro acc h
      exact ih (insertLenDesc x acc) (pairwise_insertLenDesc x acc h)
  exact hgo l [] List.Pairwise.nil

theorem pruneDirs_keeps_dir_with_file (d : String) :
    ∀ (l : List String) (st : EnvState), d ∈ st.dirs →
      (∃ f, f ∈ st.files ∧ dirName f = d) → d ∈ (pruneDirs st l).dirs := by
  intro l
  induction l with
  | nil =>
    intro st hd _
    exact hd
  | cons x tl ih =>
    intro st hd hf
    have hstep : pruneDirs st (x :: tl) = pruneDirs (rm_empty_dir st x) tl := rfl
    rw [hstep]
    have hd2 : d ∈ (rm_empty_dir st x).dirs := by
      by_cases hc : x ∈ st.dirs ∧ dirEntries st.files st.dirs x = []
      · have hxd : x ≠ d := by
          rintro rfl
          obtain ⟨f, hf1, hf2⟩ := hf
          have hmem : f ∈ st.files.filter (fun g => dirName g == x) :=
            List.mem_filter.mpr ⟨hf1, by simp [hf2]⟩
          have hnil := List.append_eq_nil.mp hc.2
          rw [hnil.1] at hmem
          cases hmem
        simp only [rm_empty_dir, osRmdir, if_pos hc]
        exact (List.mem_erase_of_ne (by exact fun he => hxd he.symm)).mpr hd
      · simp only [rm_empty_dir, osRmdir, if_neg hc]
        exact hd
    have hf2 : ∃ f, f ∈ (rm_empty_dir st x).files ∧ dirName f = d := by
      rw [rm_empty_dir_files]
      exact hf
    exact ih (rm_empty_dir st x) hd2 hf2

/-- C8: during `unlink`'s empty-directory pruning, (1) the candidate
directories are processed in decreasing path-string-length order, so (2) a
directory whose path is strictly longer (in particular, any directory
relative to any of its ancestors, an ancestor being a strict prefix and
hence strictly shorter) is processed strictly earlier; (3) `rm_empty_dir`
does nothing (and raises nothing) on a non-empty directory and (4) on a
missing one; (5) pruning never touches regular files; and (6) a directory
that contains a file is never removed by the pruning pass. -/
theorem unlink_prune_deepest_first_and_safe :
    (∀ (l : List String) (i j : Fin (sortByLenDesc l).length), i < j →
      ((sortByLenDesc l).get j).length ≤ ((sortByLenDesc l).get i).length) ∧
    (∀ (l : List String) (i j : Fin (sortByLenDesc l).length),
      ((sortByLenDesc l).get i).length < ((sortByLenDesc l).get j).length → j < i) ∧
    (∀ (st : EnvState) (d : String), dirEntries st.files st.dirs d ≠ [] →
      rm_empty_dir st d = st) ∧
    (∀ (st : EnvState) (d : String), d ∉ st.dirs → rm_empty_dir st d = st) ∧
    (∀ (st : EnvState) (l : List String), (pruneDirs st l).files = st.files) ∧
    (∀ (st : EnvState) (l : List String) (d : String), d ∈ st.dirs →
      (∃ f, f ∈ st.files ∧ dirName f = d) → d ∈ (pruneDirs st l).dirs) := by
  have hsort : ∀ (l : List String) (i j : Fin (sortByLenDesc l).length), i < j →
      ((sortByLenDesc l).get j).length ≤ ((sortByLenDesc l).get i).length := by
    intro l i j hij
    exact List.pairwise_iff_get.mp (sortByLenDesc_pairwise l) i j hij
  refine ⟨hsort, ?_, ?_, ?_, ?_, ?_⟩
  · intro l i j hlen
    rcases lt_trichotomy j i with h | h | h
    · exact h
    · rw [h] at hlen
      exact absurd hlen (lt_irrefl _)
    · exact absurd hlen (not_lt.mpr (hsort l i j h))
  · intro st d hne
    have hc : ¬ (d ∈ st.dirs ∧ dirEntries st.files st.dirs d = []) := by
      intro hcc
      exact hne hcc.2
    simp [rm_empty_dir, osRmdir, hc]
  · intro st d hd
    have hc : ¬ (d ∈ st.dirs ∧ dirEntries st.files st.dirs d = []) := by
      intro hcc
      exact hd hcc.1
    simp [rm_empty_dir, osRmdir, hc]
  · intro st l
    exact pruneDirs_files l st
  · intro st l d hd hf
    exact pruneDirs_keeps_dir_with_file d l st hd hf

/-- Witness for C8 at concrete inputs: on the sorted candidates the deeper
directory comes first; a directory holding a file survives pruning. -/
theorem unlink_prune_deepest_first_and_safe_witness :
    ((sortByLenDesc ["/p", "/p/a/b", "/p/a"]).get ⟨2, by decide⟩).length ≤
      ((sortByLenDesc ["/p", "/p/a/b", "/p/a"]).get ⟨0, by decide⟩).length ∧
    rm_empty_dir (EnvState.mk ["/p/a/f.txt"] ["/p", "/p/a"] []) "/p/a"
      = EnvState.mk ["/p/a/f.txt"] ["/p", "/p/a"] [] ∧
    "/p/a" ∈ (pruneDirs (EnvState.mk ["/p/a/f.txt"] ["/p", "/p/a"] [])
      ["/p/a", "/p"]).dirs := by
  refine ⟨?_, ?_, ?_⟩
  · exact unlink_prune_deepest_first_and_safe.1 ["/p", "/p/a/b", "/p/a"]
      ⟨0, by decide⟩ ⟨2, by decide⟩ (by decide)
  · exact unlink_prune_deepest_first_and_safe.2.2.1
      (EnvState.mk ["/p/a/f.txt"] ["/p", "/p/a"] []) "/p/a" (by decide)
  · exact unlink_prune_deepest_first_and_safe.2.2.2.2.2
      (EnvState.mk ["/p/a/f.txt"] ["/p", "/p/a"] []) ["/p/a", "/p"] "/p/a"
      (by decide) ⟨"/p/a/f.txt", by decide, by decide⟩

/-!
Link (install.py:711-868).  The model makes explicit the inputs `link`
reads from disk (manifest lines, `has_prefix` entries, `no_link` union,
`index.json` noarch flag, `link.json` entry points, the `conda-meta`
listing used by `get_python_version`, which sources are symlinks, file
contents for relocation) and the hook exit statuses, and records the
observable outcome: placements with their link method, the accumulated
`all_files` list, fatal `sys.exit`s, and the metadata commit.  Hook and
menu side effects, the `Locked` no-op lock, URL/icon metadata fields and
the noarch bytecode-compilation step are not modelled (the latter only
appends derived `.pyc` entries — or crashes, see C4).
-/

def LINK_HARD : Nat := 1

def LINK_SOFT : Nat := 2

def LINK_COPY : Nat := 3

/-- A file in the extracted package payload: either a regular file or a
symbolic link with the given target. -/
inductive SourceFile
  | regular (content : List Nat)
  | symlinkTo (target : String)
deriving DecidableEq, Repr

/-- What ends up at the destination after `_link`. -/
inductive PlacedFile
  | hardLinkOf (src : String)
  | softLinkTo (src : String)
  | symlinkCopy (target : String)
  | contentCopy (src : String)
deriving DecidableEq, Repr

/-- `_link(src, dst, linktype)` (install.py:134-152) on a non-Windows
platform: hard link, symlink, or copy — where `LINK_COPY` on a source
that is itself a symlink with a relative (`not startswith('/')`) target
reproduces the symlink (`os.symlink(os.readlink(src), dst)`) instead of
copying the pointed-to content (`shutil.copy2`). -/
def linkFile (srcPath : String) (src : SourceFile) (lt : Nat) : Except String PlacedFile :=
  if lt = LINK_HARD then Except.ok (PlacedFile.hardLinkOf srcPath)
  else if lt = LINK_SOFT then Except.ok (PlacedFile.softLinkTo srcPath)
  else if lt = LINK_COPY then
    match src with
    | SourceFile.symlinkTo t =>
      if strStartsWith t "/" = false then Except.ok (PlacedFile.symlinkCopy t)
      else Except.ok (PlacedFile.contentCopy srcPath)
    | SourceFile.regular _ => Except.ok (PlacedFile.contentCopy srcPath)
  else Except.error "Did not expect linktype"

/-- One parsed `has_prefix` entry: file, placeholder, mode (the result of
`read_has_prefix`; the shell-quoted line parsing itself is not
modelled). -/
structure HPEntry where
  file : String
  placeholderText : String
  mode : RelocMode
deriving DecidableEq, Repr

/-- The inputs of one `link(pkgs_dir, prefix, dist, linktype)` call.
`linkedDists` is the `conda-meta` listing consulted by
`get_python_version`; `symlinkSources` lists the manifest entries whose
source file is a symlink; `fileContents` gives the bytes of placed files
as read back by `update_prefix`; `preLinkOk`/`postLinkOk` are the hook
exit statuses. -/
structure LinkArgs where
  dist : String
  prefixPath : String
  targetPrefixPath : String
  linktype : Nat
  rawFileLines : List String
  hasPrefixEntries : List HPEntry
  noLinkEntries : List String
  noarchPython : Bool
  entryPoints : List String
  linkedDists : List String
  symlinkSources : List String
  fileContents : List (String × List Nat)
  preLinkOk : Bool
  postLinkOk : Bool
deriving Repr

/-- One manifest placement: the manifest entry, the prefix-relative
destination, and the link method actually used. -/
structure Placement where
  srcFile : String
  dstRel : String
  method : Nat
deriving DecidableEq, Repr

/-- The observable outcome of `link`. -/
structure LinkOutcome where
  fatal : Option String
  placements : List Placement
  allFiles : List String
  sitePackages : Option String
  metaCommitted : Option (String × List String)
deriving Repr

/-- `has_prefix_files` dictionary lookup. -/
def hpLookup (entries : List HPEntry) (f : String) : Option HPEntry :=
  entries.find? (fun e => e.file == f)

/-- Content of a placed file, as read by `update_prefix`. -/
def contentLookup (contents : List (String × List Nat)) (f : String) : List Nat :=
  ((contents.find? (fun e => e.1 == f)).map (fun e => e.2)).getD []

/-- `'{}'.format(x)` for an optional string: Python formats `None` as the
literal text `None`. -/
def pyFormat : Option String → String
  | none => "None"
  | some v => v

/-- One backtracking attempt of `(\d+.\d+)` after `python-`: `len1` digits,
then one arbitrary character (the unescaped `.`), then at least one digit
(greedy). -/
def pyVerTry (rest : List Char) (len1 : Nat) : Option String :=
  match rest.drop len1 with
  | [] => none
  | c :: tl =>
    let d2 := tl.takeWhile Char.isDigit
    if d2 = [] then none
    else some (String.mk (rest.take len1 ++ c :: d2))

/-- Greedy-with-backtracking search over the length of the first digit
run, longest first. -/
def pyVerSearch (rest : List Char) : Nat → Option String
  | 0 => none
  | n + 1 =>
    match pyVerTry rest (n + 1) with
    | some v => some v
    | none => pyVerSearch rest n

/-- `re.search('^python-(\d+.\d+)', dist)` (install.py:601): anchored at
the start; note the second `.` is unescaped, so it matches any
character. -/
def matchPythonVer (dist : String) : Option String :=
  if strStartsWith dist "python-" then
    let rest := dist.data.drop 7
    pyVerSearch rest (rest.takeWhile Char.isDigit).length
  else none

/-- `get_python_version(prefix)` (install.py:591-607) over the linked
distributions: the first match yields the captured version, otherwise
`None` — with only `log.info('Python has not been linked ...')`, no
exception.  (Python iterates a set; the model fixes the listing
order.) -/
def get_python_version : List String → Option String
  | [] => none
  | d :: tl =>
    match matchPythonVer d with
    | some v => some v
    | none => get_python_version tl

/-- `get_python_noarch_target_path` (install.py:450-466).  Under the
`startswith` guards the first occurrence of the pattern is at position 0,
so `replace(pat, new, 1)` is prepending `new` to the remainder. -/
def get_python_noarch_target_path (sourceShortPath targetSitePackagesShortPath : String) :
    String :=
  if strStartsWith sourceShortPath "site-packages/" then
    targetSitePackagesShortPath ++ String.mk (sourceShortPath.data.drop 13)
  else if strStartsWith sourceShortPath "python-scripts/" then
    "bin" ++ String.mk (sourceShortPath.data.drop 14)
  else sourceShortPath

/-- `parse_entry_point_def` (install.py:496-505): `command = module:func`
split from the right, each part stripped.  (On malformed input Python
raises from tuple unpacking; the model yields degenerate parts.) -/
def parse_entry_point_def (ep : String) : String × String × String :=
  let parts := ep.data.splitOn ':'
  let cmdMod := List.intercalate [':'] parts.dropLast
  let func := parts.getLastD []
  let parts2 := cmdMod.splitOn '='
  let command := List.intercalate ['='] parts2.dropLast
  let module := parts2.getLastD []
  (pyStrip (String.mk command), pyStrip (String.mk module), pyStrip (String.mk func))

/-- `s.encode('utf-8')` for the ASCII strings used here: one byte per
character. -/
def strBytes (s : String) : List Nat := s.data.map Char.toNat

/-- Lexicographic order on code points, as Python compares strings. -/
def charListLe : List Char → List Char → Bool
  | [], _ => true
  | _ :: _, [] => false
  | c :: cs, d :: ds =>
    if c.toNat < d.toNat then true
    else if d.toNat < c.toNat then false
    else charListLe cs ds

/-- Insertion into an ascending sorted list. -/
def insertStrAsc (x : String) : List String → List String
  | [] => [x]
  | y :: ys => if charListLe y.data x.data then y :: insertStrAsc x ys else x :: y :: ys

/-- `sorted(l)` for strings (install.py:830 sorts the `has_prefix`
files). -/
def sortStrAsc (l : List String) : List String :=
  l.foldl (fun acc x => insertStrAsc x acc) []

/-- `files = list(yield_lines(join(info_dir, 'files')))` (install.py:733). -/
def linkFiles (a : LinkArgs) : List String := yield_lines a.rawFileLines

/-- `target_site_packages` (install.py:760-764), computed only for
noarch-Python packages: `'lib/python{}'.format(target_py_version)` plus
`site-packages` — when no Python is linked, `target_py_version` is `None`
and the formatted path contains the literal `None`. -/
def linkSitePackages (a : LinkArgs) : Option String :=
  if a.noarchPython then
    some ("lib/python" ++ pyFormat (get_python_version a.linkedDists) ++ "/site-packages")
  else none

/-- One iteration of the placement loop (install.py:771-801): noarch
remapping of the destination, and the forced-copy rule
`if f in has_prefix_files or f in no_link or islink(src): lt = LINK_COPY`. -/
def placeOne (a : LinkArgs) (f : String) : Placement :=
  let dstRel :=
    match linkSitePackages a with
    | some tsp => get_python_noarch_target_path f tsp
    | none => f
  let lt :=
    if (hpLookup a.hasPrefixEntries f).isSome ∨ f ∈ a.noLinkEntries ∨
        f ∈ a.symlinkSources then LINK_COPY
    else a.linktype
  Placement.mk f dstRel lt

/-- All manifest placements of one `link` call. -/
def linkPlacements (a : LinkArgs) : List Placement :=
  (linkFiles a).map (placeOne a)

/-- The `all_files` list (install.py:768-813): the placed destinations,
plus for noarch packages one synthesized entry-point script per declared
entry point (the absolute `join(prefix, 'bin', command)` path returned by
`create_python_entry_point`).  The bytecode-compilation step, which can
append further `.pyc` entries, is not modelled. -/
def linkAllFiles (a : LinkArgs) : List String :=
  if a.noarchPython then
    (linkPlacements a).map (fun p => p.dstRel) ++
      a.entryPoints.map (fun ep =>
        pathJoin (pathJoin a.prefixPath "bin") (parse_entry_point_def ep).1)
  else (linkPlacements a).map (fun p => p.dstRel)

/-- The relocation loop (install.py:830-836): `update_prefix` on each
`has_prefix` file in sorted order; `True` when some call raises
`PaddingError` (which `link` turns into `sys.exit`). -/
def linkRelocFailed (a : LinkArgs) : Bool :=
  (sortStrAsc (a.hasPrefixEntries.map (fun e => e.file))).any (fun f =>
    match hpLookup a.hasPrefixEntries f with
    | some e =>
      match updatePrefix (contentLookup a.fileContents f) (strBytes e.placeholderText)
          (strBytes a.targetPrefixPath) e.mode with
      | Except.error _ => true
      | Except.ok _ => false
    | none => false)

/-- `link(pkgs_dir, prefix, dist, linktype)` (install.py:711-868):
pre-link hook (failure exits before anything is placed), manifest
placement, noarch steps, then — unless the distribution's name is the
`_cache` pseudo-package, which returns right here — relocation
(`PaddingError` exits), post-link hook (failure exits), and finally the
metadata commit via `create_meta`. -/
def linkRun (a : LinkArgs) : LinkOutcome :=
  if a.preLinkOk = false then
    { fatal := some ("Error: pre-link failed: " ++ a.dist), placements := [],
      allFiles := [], sitePackages := none, metaCommitted := none }
  else if name_dist a.dist = "_cache" then
    { fatal := none, placements := linkPlacements a, allFiles := linkAllFiles a,
      sitePackages := linkSitePackages a, metaCommitted := none }
  else if linkRelocFailed a = true then
    { fatal := some ("ERROR: placeholder too short in: " ++ a.dist),
      placements := linkPlacements a, allFiles := linkAllFiles a,
      sitePackages := linkSitePackages a, metaCommitted := none }
  else if a.postLinkOk = false then
    { fatal := some ("Error: post-link failed for: " ++ a.dist),
      placements := linkPlacements a, allFiles := linkAllFiles a,
      sitePackages := linkSitePackages a, metaCommitted := none }
  else
    { fatal := none, placements := linkPlacements a, allFiles := linkAllFiles a,
      sitePackages := linkSitePackages a, metaCommitted := some (a.dist, linkAllFiles a) }

/-- The `conda-meta` listing after `link`: `create_meta` (install.py:294-308)
writes `<dist>.json` exactly when `link` commits a record. -/
def metaDirAfterLink (listing : List String) (r : LinkOutcome) : List String :=
  match r.metaCommitted with
  | some dl => listing ++ [dl.1 ++ ".json"]
  | none => listing

theorem linkRun_placements_eq (a : LinkArgs) (hpre : a.preLinkOk = true) :
    (linkRun a).placements = linkPlacements a := by
  rw [linkRun, if_neg (by simp [hpre])]
  split
  · rfl
  · split
    · rfl
    · split
      · rfl
      · rfl

theorem linkRun_meta_files (a : LinkArgs) (d : String) (fl : List String)
    (h : (linkRun a).metaCommitted = some (d, fl)) :
    d = a.dist ∧ fl = linkAllFiles a := by
  rw [linkRun] at h
  by_cases hpre : a.preLinkOk = false
  · rw [if_pos hpre] at h
    cases h
  · rw [if_neg hpre] at h
    split at h
    · cases h
    · split at h
      · cases h
      · split at h
        · cases h
        · cases h
          exact ⟨rfl, rfl⟩

/-- The `LinkArgs` of a noarch-Python distribution linked into a prefix in
which no `python-X.Y` distribution is linked. -/
def noarchNoPythonArgs : LinkArgs :=
  { dist := "mypkg-1.0-0", prefixPath := "/env", targetPrefixPath := "/env",
    linktype := LINK_HARD, rawFileLines := ["site-packages/foo.py"],
    hasPrefixEntries := [], noLinkEntries := [], noarchPython := true,
    entryPoints := [], linkedDists := ["numpy-1.11.3-py27_0"],
    symlinkSources := [], fileContents := [], preLinkOk := true, postLinkOk := true }

/-- C4 (code-bug evidence): linking a noarch-Python distribution into a
prefix with no `python-X.Y` linked does NOT fail fast.
`get_python_version` returns `None` (it only emits `log.info`), and `link`
proceeds: it formats the missing version into the target paths — the
computed site-packages directory is the literal
`lib/pythonNone/site-packages` — places the manifest there, and reaches
the metadata commit with no fatal error in the modelled control flow (the
real code then crashes on the first `.py` file with an `AttributeError`
inside the bytecode step, `None.startswith`, after files have already been
placed — not the clear fatal error the spec requires). -/
theorem noarch_missing_python_not_fail_fast :
    get_python_version ["numpy-1.11.3-py27_0"] = none ∧
    (linkRun noarchNoPythonArgs).fatal = none ∧
    (linkRun noarchNoPythonArgs).sitePackages = some "lib/pythonNone/site-packages" ∧
    (linkRun noarchNoPythonArgs).allFiles = ["lib/pythonNone/site-packages/foo.py"] ∧
    (linkRun noarchNoPythonArgs).metaCommitted.isSome = true := by
  decide

/-- C6: linking a distribution whose identifier, with the trailing two
hyphen-delimited components stripped, is `_cache` commits no metadata:
`link` returns before `create_meta`, so no `<dist>.json` record appears in
`conda-meta` and the distribution is never reported by `linked`. -/
theorem cache_dist_commits_no_metadata (a : LinkArgs) (h : name_dist a.dist = "_cache")
    (metaListing : List String) (hnot : a.dist ∉ linked metaListing) :
    (linkRun a).metaCommitted = none ∧
    a.dist ∉ linked (metaDirAfterLink metaListing (linkRun a)) := by
  have hmc : (linkRun a).metaCommitted = none := by
    by_cases hpre : a.preLinkOk = false
    · rw [linkRun, if_pos hpre]
    · rw [linkRun, if_neg hpre, if_pos h]
  refine ⟨hmc, ?_⟩
  simp only [metaDirAfterLink, hmc]
  exact hnot

/-- The `LinkArgs` of the C6 witness: an `_cache` pseudo-package. -/
def cacheArgs : LinkArgs :=
  { dist := "_cache-1.0-0", prefixPath := "/env", targetPrefixPath := "/env",
    linktype := LINK_HARD, rawFileLines := ["a.txt"], hasPrefixEntries := [],
    noLinkEntries := [], noarchPython := false, entryPoints := [], linkedDists := [],
    symlinkSources := [], fileContents := [], preLinkOk := true, postLinkOk := true }

/-- Witness for C6 at a concrete input. -/
theorem cache_dist_commits_no_metadata_witness :
    (linkRun cacheArgs).metaCommitted = none ∧
    "_cache-1.0-0" ∉ linked (metaDirAfterLink ["other-1-0.json"] (linkRun cacheArgs)) :=
  cache_dist_commits_no_metadata cacheArgs (by decide) ["other-1-0.json"] (by decide)

/-- C9: a manifest file with a `has_prefix` entry, listed in
`no_link`/`no_softlink`, or whose source is a symlink, is placed with the
copy method regardless of the requested link type; and the copy method
applied to a source that is a relative symlink reproduces the symlink
itself rather than copying the target's content. -/
theorem relocation_targets_always_copied (a : LinkArgs) (pl : Placement)
    (hmem : pl ∈ (linkRun a).placements)
    (hcond : (hpLookup a.hasPrefixEntries pl.srcFile).isSome = true ∨
      pl.srcFile ∈ a.noLinkEntries ∨ pl.srcFile ∈ a.symlinkSources) :
    pl.method = LINK_COPY ∧
    ∀ (p t : String), strStartsWith t "/" = false →
      linkFile p (SourceFile.symlinkTo t) LINK_COPY
        = Except.ok (PlacedFile.symlinkCopy t) := by
  constructor
  · by_cases hpre : a.preLinkOk = false
    · rw [linkRun, if_pos hpre] at hmem
      exact absurd hmem (List.not_mem_nil pl)
    · have hpre2 : a.preLinkOk = true := by
        revert hpre
        cases a.preLinkOk <;> simp
      rw [linkRun_placements_eq a hpre2] at hmem
      obtain ⟨f, hf, hfe⟩ := List.mem_map.mp hmem
      have hsrc : pl.srcFile = f := by
        rw [← hfe]
        rfl
      rw [hsrc] at hcond
      rw [← hfe]
      show (placeOne a f).method = LINK_COPY
      simp only [placeOne]
      rw [if_pos hcond]
  · intro p t ht
    simp [linkFile, LINK_HARD, LINK_SOFT, LINK_COPY, ht]

/-- The `LinkArgs` of the C9 witness: one manifest file with a
`has_prefix` entry, requested link type hard. -/
def hasPrefixCopyArgs : LinkArgs :=
  { dist := "mypkg-1.0-0", prefixPath := "/env", targetPrefixPath := "/env",
    linktype := LINK_HARD, rawFileLines := ["bin/x"],
    hasPrefixEntries := [HPEntry.mk "bin/x" "/placeholder" RelocMode.text],
    noLinkEntries := [], noarchPython := false, entryPoints := [], linkedDists := [],
    symlinkSources := [], fileContents := [], preLinkOk := true, postLinkOk := true }

/-- Witness for C9 at a concrete input. -/
theorem relocation_targets_always_copied_witness :
    (placeOne hasPrefixCopyArgs "bin/x").method = LINK_COPY ∧
    ∀ (p t : String), strStartsWith t "/" = false →
      linkFile p (SourceFile.symlinkTo t) LINK_COPY
        = Except.ok (PlacedFile.symlinkCopy t) :=
  relocation_targets_always_copied hasPrefixCopyArgs (placeOne hasPrefixCopyArgs "bin/x")
    (by decide) (by decide)

theorem yield_lines_mem (lines : List String) (t : String) (h : t ∈ yield_lines lines) :
    t ≠ "" ∧ strStartsWith t "#" = false := by
  obtain ⟨l, hl, he⟩ := List.mem_filterMap.mp h
  simp only at he
  by_cases hc : pyStrip l = "" ∨ strStartsWith (pyStrip l) "#" = true
  · rw [if_pos hc] at he
    cases he
  · rw [if_neg hc] at he
    cases he
    push_neg at hc
    refine ⟨hc.1, ?_⟩
    revert hc
    cases strStartsWith (pyStrip l) "#" <;> simp

theorem placeOne_dstRel_of_not_noarch (a : LinkArgs) (hn : a.noarchPython = false)
    (f : String) : (placeOne a f).dstRel = f := by
  simp [placeOne, linkSitePackages, hn]

/-- C10: `yield_lines` drops lines that are empty after stripping and
lines whose stripped form begins with `#`; consequently (for an
arch-specific distribution, whose manifest paths are placed verbatim) no
placed destination and no file recorded in the committed metadata begins
with `#`. -/
theorem hash_manifest_lines_never_placed (a : LinkArgs) (hn : a.noarchPython = false) :
    (∀ t, t ∈ yield_lines a.rawFileLines → t ≠ "" ∧ strStartsWith t "#" = false) ∧
    (∀ pl, pl ∈ (linkRun a).placements → strStartsWith pl.dstRel "#" = false) ∧
    (∀ d fl, (linkRun a).metaCommitted = some (d, fl) →
      ∀ f, f ∈ fl → strStartsWith f "#" = false) := by
  refine ⟨fun t ht => yield_lines_mem _ t ht, ?_, ?_⟩
  · intro pl hmem
    by_cases hpre : a.preLinkOk = false
    · rw [linkRun, if_pos hpre] at hmem
      exact absurd hmem (List.not_mem_nil pl)
    · have hpre2 : a.preLinkOk = true := by
        revert hpre
        cases a.preLinkOk <;> simp
      rw [linkRun_placements_eq a hpre2] at hmem
      obtain ⟨f, hf, hfe⟩ := List.mem_map.mp hmem
      rw [← hfe, placeOne_dstRel_of_not_noarch a hn]
      exact (yield_lines_mem _ f hf).2
  · intro d fl hmeta f hf
    rw [(linkRun_meta_files a d fl hmeta).2] at hf
    rw [linkAllFiles, if_neg (by simp [hn])] at hf
    obtain ⟨p, hp, hpe⟩ := List.mem_map.mp hf
    obtain ⟨g, hg, hge⟩ := List.mem_map.mp hp
    rw [← hpe, ← hge, placeOne_dstRel_of_not_noarch a hn]
    exact (yield_lines_mem _ g hg).2

/-- The `LinkArgs` of the C10 witness: a manifest with a `#`-prefixed
line. -/
def hashLineArgs : LinkArgs :=
  { dist := "mypkg-1.0-0", prefixPath := "/env", targetPrefixPath := "/env",
    linktype := LINK_HARD, rawFileLines := ["#dropped", "keep.txt", "  "],
    hasPrefixEntries := [], noLinkEntries := [], noarchPython := false,
    entryPoints := [], linkedDists := [], symlinkSources := [], fileContents := [],
    preLinkOk := true, postLinkOk := true }

/-- Witness for C10 at a concrete input. -/
theorem hash_manifest_lines_never_placed_witness :
    (∀ t, t ∈ yield_lines hashLineArgs.rawFileLines →
      t ≠ "" ∧ strStartsWith t "#" = false) ∧
    (∀ pl, pl ∈ (linkRun hashLineArgs).placements →
      strStartsWith pl.dstRel "#" = false) ∧
    (∀ d fl, (linkRun hashLineArgs).metaCommitted = some (d, fl) →
      ∀ f, f ∈ fl → strStartsWith f "#" = false) :=
  hash_manifest_lines_never_placed hashLineArgs (by decide)
